import Mathlib

/-!
Shallow embedding of the event retention and aggregation engine of
grachale/track_github (app/src/main.py), together with proofs of the
specified properties.

Timestamps are modelled as integers (seconds since some epoch), matching
the second-granularity of the `%Y-%m-%dT%H:%M:%SZ` parse in the source.
The github_events table is modelled as a list of rows in insertion order.
Averages are computed over the rationals; `round(x, 3)` is modelled as
rounding `x * 1000` to the nearest integer and dividing by 1000.
-/

/-- One row of the `github_events` table: owner, repo, event_timestamp, type.
The SERIAL id column is represented by the position in the list. -/
structure Row where
  owner : String
  repo : String
  timestamp : ℤ
  type : String
deriving DecidableEq

/-- A fetched GitHub event, after parsing: its `type` field and its
`created_at` timestamp in seconds. -/
structure Event where
  type : String
  created_at : ℤ
deriving DecidableEq

/-- A tracked repository from the configuration file. -/
structure RepoCfg where
  owner : String
  repo : String
deriving DecidableEq

/-- The hard-coded capacity bound 500 from `update_data`. -/
def CAPACITY : Nat := 500

/-- Python `timedelta.days`: the floor of the total seconds divided by 86400. -/
def tdDays (seconds : ℤ) : ℤ := Int.fdiv seconds 86400

/-- Remove the first element satisfying `p`; the rest of the list is kept. -/
def removeFirstWith (p : Row → Bool) : List Row → List Row
  | [] => []
  | r :: rs => if p r then rs else r :: removeFirstWith p rs

/-- The DELETE statement of `update_data`: remove one row whose
event_timestamp equals the minimal event_timestamp in the table
(modelled as the first such row in insertion order). -/
def deleteOldest (store : List Row) : List Row :=
  match (store.map Row.timestamp).min? with
  | none => store
  | some m => removeFirstWith (fun r => r.timestamp == m) store

/-- The row inserted by `update_data` for a fetched event of a repository. -/
def mkRow (cfg : RepoCfg) (ev : Event) : Row :=
  ⟨cfg.owner, cfg.repo, ev.created_at, ev.type⟩

/-- The body of the inner loop of `update_data` for one fetched event, acting
on the pair (table contents, current_count).  The capacity is a parameter
`cap`; the source uses `cap = 500` (`CAPACITY`).  An event is skipped when
`(datetime.now() - event_datetime).days > 7`; otherwise, if the count is at
least `cap`, the oldest row is deleted first, and then the new row is
appended. -/
def insertStep (cap : Nat) (now : ℤ) (cfg : RepoCfg) (st : List Row × Nat) (ev : Event) :
    List Row × Nat :=
  if tdDays (now - ev.created_at) > 7 then st
  else
    let st2 := if st.2 ≥ cap then (deleteOldest st.1, st.2 - 1) else st
    (st2.1 ++ [mkRow cfg ev], st2.2 + 1)

/-- Processing of the full event list fetched for one repository. -/
def processRepo (cap : Nat) (now : ℤ) (cfg : RepoCfg) (events : List Event)
    (st : List Row × Nat) : List Row × Nat :=
  events.foldl (insertStep cap now cfg) st

/-- Outcome of `get_github_events` for one repository: either the parsed JSON
list of events, or a raised request/JSON error. -/
abbrev FetchResult := Except String (List Event)

/-- The loop of `update_data` over the configured repositories: each
repository comes with the outcome of its fetch.  A fetch error aborts the
loop at once, leaving the table as it is and propagating the error. -/
def runRepos (cap : Nat) (now : ℤ) :
    List (RepoCfg × FetchResult) → List Row × Nat → (List Row × Nat) × Option String
  | [], st => (st, none)
  | (_, Except.error e) :: _, st => (st, some e)
  | (cfg, Except.ok evs) :: rest, st => runRepos cap now rest (processRepo cap now cfg evs st)

/-- The `/update` handler `update_data`: drop the table (`prevTable` is
discarded), recreate it empty, set current_count to 0, and run the loop
over the repositories. -/
def update_data (now : ℤ) (inputs : List (RepoCfg × FetchResult)) (prevTable : List Row) :
    (List Row × Nat) × Option String :=
  let _ := prevTable
  runRepos CAPACITY now inputs ([], 0)

/-- All intermediate states of `insertStep` while one repository is
processed, the entry state included. -/
def repoStates (cap : Nat) (now : ℤ) (cfg : RepoCfg) (events : List Event)
    (st : List Row × Nat) : List (List Row × Nat) :=
  events.scanl (insertStep cap now cfg) st

/-- All intermediate states of an update cycle, in order. -/
def cycleStates (cap : Nat) (now : ℤ) :
    List (RepoCfg × FetchResult) → List Row × Nat → List (List Row × Nat)
  | [], st => [st]
  | (_, Except.error _) :: _, st => [st]
  | (cfg, Except.ok evs) :: rest, st =>
      repoStates cap now cfg evs st ++ cycleStates cap now rest (processRepo cap now cfg evs st)

/-- Processing of a list of repositories whose fetches all succeeded. -/
def processAll (cap : Nat) (now : ℤ) (pairs : List (RepoCfg × List Event))
    (st : List Row × Nat) : List Row × Nat :=
  pairs.foldl (fun st p => processRepo cap now p.1 p.2 st) st

/-! ### Store lemmas -/

lemma removeFirstWith_spec (p : Row → Bool) (l : List Row) (h : ∃ x ∈ l, p x = true) :
    ∃ l1 x l2, l = l1 ++ x :: l2 ∧ p x = true ∧ removeFirstWith p l = l1 ++ l2 := by
  induction l with
  | nil => simp at h
  | cons r rs ih =>
    by_cases hr : p r = true
    · exact ⟨[], r, rs, rfl, hr, by simp [removeFirstWith, hr]⟩
    · obtain ⟨x, hx, hpx⟩ := h
      have hxrs : x ∈ rs := by
        rcases List.mem_cons.mp hx with h1 | h1
        · exact absurd (h1 ▸ hpx) hr
        · exact h1
      obtain ⟨l1, x2, l2, he, hp2, hrem⟩ := ih ⟨x, hxrs, hpx⟩
      exact ⟨r :: l1, x2, l2, by simp [he], hp2, by simp [removeFirstWith, hr, hrem]⟩

lemma removeFirstWith_subset (p : Row → Bool) (l : List Row) :
    ∀ r ∈ removeFirstWith p l, r ∈ l := by
  induction l with
  | nil => simp [removeFirstWith]
  | cons a rs ih =>
    intro r hr
    unfold removeFirstWith at hr
    split at hr
    · exact List.mem_cons_of_mem _ hr
    · rcases List.mem_cons.mp hr with h1 | h1
      · exact h1 ▸ List.mem_cons_self _ _
      · exact List.mem_cons_of_mem _ (ih r h1)

lemma deleteOldest_spec (store : List Row) (hne : store ≠ []) :
    ∃ l1 x l2, store = l1 ++ x :: l2 ∧ deleteOldest store = l1 ++ l2 ∧
      ∀ y ∈ store, x.timestamp ≤ y.timestamp := by
  obtain ⟨m, hm⟩ : ∃ m, (store.map Row.timestamp).min? = some m := by
    cases h : (store.map Row.timestamp).min? with
    | none => exact absurd (List.min?_eq_none_iff.mp h) (by simpa using hne)
    | some m => exact ⟨m, rfl⟩
  have hmem : m ∈ store.map Row.timestamp := List.min?_mem min_choice hm
  have hle : ∀ b ∈ store.map Row.timestamp, m ≤ b :=
    fun b hb => (List.le_min?_iff (fun _ _ _ => le_min_iff) hm).mp le_rfl b hb
  obtain ⟨x0, hx0, hx0ts⟩ := List.mem_map.mp hmem
  obtain ⟨l1, x, l2, hdc, hpx, hrem⟩ :=
    removeFirstWith_spec (fun r => r.timestamp == m) store ⟨x0, hx0, by simp [hx0ts]⟩
  refine ⟨l1, x, l2, hdc, ?_, ?_⟩
  · simp [deleteOldest, hm, hrem]
  · intro y hy
    have hxm : x.timestamp = m := by simpa using hpx
    exact hxm ▸ hle y.timestamp (List.mem_map.mpr ⟨y, hy, rfl⟩)

lemma deleteOldest_length (store : List Row) (hne : store ≠ []) :
    (deleteOldest store).length + 1 = store.length := by
  obtain ⟨l1, x, l2, hdc, hdel, _⟩ := deleteOldest_spec store hne
  subst hdc
  simp [hdel]
  omega

lemma deleteOldest_subset (store : List Row) : ∀ r ∈ deleteOldest store, r ∈ store := by
  unfold deleteOldest
  cases h : (store.map Row.timestamp).min? with
  | none => exact fun r hr => hr
  | some m => exact removeFirstWith_subset _ store

/-- The invariant maintained by the update cycle: current_count agrees with
the actual number of rows, and the number of rows is within the capacity. -/
def sizeOk (cap : Nat) (st : List Row × Nat) : Prop :=
  st.2 = st.1.length ∧ st.1.length ≤ cap

lemma insertStep_sizeOk (cap : Nat) (hcap : 1 ≤ cap) (now : ℤ) (cfg : RepoCfg)
    (st : List Row × Nat) (ev : Event) (h : sizeOk cap st) :
    sizeOk cap (insertStep cap now cfg st ev) := by
  obtain ⟨store, count⟩ := st
  obtain ⟨h1, h2⟩ := h
  simp only [sizeOk] at h1 h2 ⊢
  unfold insertStep
  by_cases hst : tdDays (now - ev.created_at) > 7
  · simp [hst]
    omega
  · simp only [hst, if_false]
    by_cases hc : count ≥ cap
    · have hne : store ≠ [] := by
        intro he
        subst he
        simp at h1
        omega
      have hlen := deleteOldest_length store hne
      simp [hc]
      omega
    · simp [hc]
      omega

lemma processRepo_sizeOk (cap : Nat) (hcap : 1 ≤ cap) (now : ℤ) (cfg : RepoCfg)
    (events : List Event) (st : List Row × Nat) (h : sizeOk cap st) :
    sizeOk cap (processRepo cap now cfg events st) := by
  induction events generalizing st with
  | nil => exact h
  | cons e es ih => exact ih _ (insertStep_sizeOk cap hcap now cfg st e h)

lemma repoStates_sizeOk (cap : Nat) (hcap : 1 ≤ cap) (now : ℤ) (cfg : RepoCfg)
    (events : List Event) (st : List Row × Nat) (h : sizeOk cap st) :
    ∀ s ∈ repoStates cap now cfg events st, sizeOk cap s := by
  induction events generalizing st with
  | nil =>
    intro s hs
    simp [repoStates, List.scanl_nil] at hs
    exact hs ▸ h
  | cons e es ih =>
    intro s hs
    simp only [repoStates, List.scanl_cons, List.singleton_append, List.mem_cons] at hs
    rcases hs with h1 | h1
    · exact h1 ▸ h
    · exact ih _ (insertStep_sizeOk cap hcap now cfg st e h) s h1

lemma cycleStates_sizeOk (cap : Nat) (hcap : 1 ≤ cap) (now : ℤ)
    (inputs : List (RepoCfg × FetchResult)) (st : List Row × Nat) (h : sizeOk cap st) :
    ∀ s ∈ cycleStates cap now inputs st, sizeOk cap s := by
  induction inputs generalizing st with
  | nil =>
    intro s hs
    simp [cycleStates] at hs
    exact hs ▸ h
  | cons p rest ih =>
    obtain ⟨cfg, fr⟩ := p
    cases fr with
    | error e =>
      intro s hs
      simp [cycleStates] at hs
      exact hs ▸ h
    | ok evs =>
      intro s hs
      simp only [cycleStates, List.mem_append] at hs
      rcases hs with h1 | h1
      · exact repoStates_sizeOk cap hcap now cfg evs st h s h1
      · exact ih _ (processRepo_sizeOk cap hcap now cfg evs st h) s h1

/-! ### Aggregation: date_transform_to and calculate_average_time -/

/-- `date_transform_to`: convert a timedelta (as rational seconds) to the
configured unit.  An unknown unit raises an exception, modelled as `none`. -/
def date_transform_to (date : ℚ) (delta : String) : Option ℚ :=
  if delta = "second" then some date
  else if delta = "minute" then some (date / 60)
  else if delta = "hour" then some (date / 3600)
  else none

/-- Python `round(x, 3)`: rounding to three decimal places, modelled as
rounding to the nearest thousandth (ties rounded up). -/
def round3 (x : ℚ) : ℚ := ((x * 1000 + 1 / 2).floor : ℤ) / 1000

/-- `type_times[t].append(x)` on the defaultdict of lists, represented as an
association list in key creation order. -/
def addToGroup : List (String × List ℤ) → String → ℤ → List (String × List ℤ)
  | [], t, x => [(t, [x])]
  | (k, xs) :: rest, t, x =>
      if k = t then (k, xs ++ [x]) :: rest else (k, xs) :: addToGroup rest t x

/-- The grouping loop of `calculate_average_time`: timestamps of the rows,
grouped by event type, both in input order. -/
def type_times (events : List Row) : List (String × List ℤ) :=
  events.foldl (fun acc e => addToGroup acc e.type e.timestamp) []

/-- The consecutive differences `times[i] - times[i - 1]` for `i = 1 .. n-1`. -/
def consecDeltas : List ℤ → List ℤ
  | [] => []
  | [_] => []
  | a :: b :: rest => (b - a) :: consecDeltas (b :: rest)

/-- Conversion of every delta to the configured unit; the first failing
conversion raises, modelled as `none`. -/
def convertDeltas (delta : String) : List ℤ → Option (List ℚ)
  | [] => some []
  | d :: rest =>
    match date_transform_to (d : ℚ) delta with
    | none => none
    | some c =>
      match convertDeltas delta rest with
      | none => none
      | some r => some (c :: r)

/-- The per-type branch of `calculate_average_time`: 0 for fewer than two
samples, otherwise the rounded mean of the converted consecutive deltas. -/
def avgForType (delta : String) (times : List ℤ) : Option ℚ :=
  if times.length < 2 then some 0
  else
    match convertDeltas delta (consecDeltas times) with
    | none => none
    | some converted => some (round3 (converted.sum / ((times.length - 1 : ℕ) : ℚ)))

/-- The result-building loop of `calculate_average_time` over the groups. -/
def mapTypes (delta : String) : List (String × List ℤ) → Option (List (String × ℚ))
  | [] => some []
  | (t, times) :: rest =>
    match avgForType delta times with
    | none => none
    | some v =>
      match mapTypes delta rest with
      | none => none
      | some r => some ((t, v) :: r)

/-- `calculate_average_time`: `some none` is the Python `None` returned for an
empty input, `some (some m)` is the result dict (an association list in key
creation order), and the outer `none` is a raised exception (unknown unit). -/
def calculate_average_time (delta : String) (events : List Row) :
    Option (Option (List (String × ℚ))) :=
  if events.isEmpty then some none
  else
    match mapTypes delta (type_times events) with
    | none => none
    | some result => some (some result)

/-! ### The statistics endpoint -/

/-- Lookup in an association list (Python dict read). -/
def alistGet {α : Type} : List (String × α) → String → Option α
  | [], _ => none
  | (k2, v) :: rest, k => if k2 = k then some v else alistGet rest k

/-- Assignment in an association list (Python dict write): an existing key
keeps its position, a new key is appended. -/
def alistSet {α : Type} : List (String × α) → String → α → List (String × α)
  | [], k, v => [(k, v)]
  | (k2, v2) :: rest, k, v =>
      if k2 = k then (k2, v) :: rest else (k2, v2) :: alistSet rest k v

/-- The SELECT of `get_db_statistics`: rows of the pair (owner, repo),
ordered by event_timestamp ascending. -/
def get_db_query (store : List Row) (owner repo : String) : List Row :=
  (store.filter (fun r => r.owner == owner && r.repo == repo)).insertionSort
    (fun a b => a.timestamp ≤ b.timestamp)

/-- `get_db_statistics`: query the table, then aggregate. -/
def get_db_statistics (delta : String) (store : List Row) (owner repo : String) :
    Option (Option (List (String × ℚ))) :=
  calculate_average_time delta (get_db_query store owner repo)

/-- The loop of `get_api_statistics` over the configured repositories.
`result` is keyed by the repo name alone.  A `None` statistics value stores
an empty dict under the repo name; otherwise each per-type average is
written through `result[repo][typ] = average_time`, where the defaultdict
supplies an empty dict when the repo key is absent. -/
def apiFold (delta : String) (store : List Row) :
    List RepoCfg → List (String × List (String × ℚ)) → Option (List (String × List (String × ℚ)))
  | [], result => some result
  | repository :: rest, result =>
    match get_db_statistics delta store repository.owner repository.repo with
    | none => none
    | some none => apiFold delta store rest (alistSet result repository.repo [])
    | some (some statistics) =>
        apiFold delta store rest
          (statistics.foldl
            (fun res tv =>
              alistSet res repository.repo
                (alistSet ((alistGet res repository.repo).getD []) tv.1 tv.2))
            result)

/-- The `/statistics` handler `get_api_statistics`. -/
def get_api_statistics (delta : String) (repos : List RepoCfg) (store : List Row) :
    Option (List (String × List (String × ℚ))) :=
  apiFold delta store repos []

/-- The valid configuration units of `date_transform_to`. -/
def validUnit (delta : String) : Bool :=
  delta == "second" || delta == "minute" || delta == "hour"

/-- The conversion of the specification: linear reading of the unit
(seconds; seconds over 60; seconds over 3600). -/
def convertUnit (delta : String) (x : ℚ) : ℚ :=
  if delta = "second" then x
  else if delta = "minute" then x / 60
  else x / 3600

/-- The per-type value actually produced for a valid unit. -/
def avgValue (delta : String) (times : List ℤ) : ℚ :=
  if times.length < 2 then 0
  else round3 (((consecDeltas times).map (fun d : ℤ => convertUnit delta (d : ℚ))).sum /
    ((times.length - 1 : ℕ) : ℚ))

/-! ### Claims C1, C2, C3: retention and eviction -/

/-- C1: for every update cycle and every sequence of fetched events, after
each insert performed by the cycle the total number of records retained in
the store, across all tracked repositories combined, is at most the
capacity C = 500. -/
theorem C1_capacity_bound (now : ℤ) (inputs : List (RepoCfg × FetchResult))
    (s : List Row × Nat) (hs : s ∈ cycleStates CAPACITY now inputs ([], 0)) :
    s.1.length ≤ 500 := by
  have h := cycleStates_sizeOk CAPACITY (by norm_num [CAPACITY]) now inputs ([], 0)
    ⟨rfl, by simp [CAPACITY]⟩ s hs
  simpa [CAPACITY] using h.2

theorem C1_capacity_bound_witness :
    (([(⟨"o", "r", 0, "E"⟩ : Row)], 1) ∈
      cycleStates CAPACITY 100 [(⟨"o", "r"⟩, Except.ok [⟨"E", 0⟩])] ([], 0)) ∧
    ([(⟨"o", "r", 0, "E"⟩ : Row)], 1).1.length ≤ 500 :=
  ⟨by decide, C1_capacity_bound 100 [(⟨"o", "r"⟩, Except.ok [⟨"E", 0⟩])]
    ([(⟨"o", "r", 0, "E"⟩ : Row)], 1) (by decide)⟩

/-- C2 counterexample: an event whose age is 7 days and 1 hour exceeds the
7-day freshness window, yet the insert step does not leave the store
unchanged: the event is inserted, because the source drops an event only
when `(now - created_at).days > 7`, that is when the age reaches 8 whole
days. -/
theorem C2_counterexample :
    (7 * 86400 : ℤ) < 608400 - 0 ∧
    insertStep CAPACITY 608400 ⟨"o", "r"⟩ ([], 0) ⟨"PushEvent", 0⟩ =
      ([⟨"o", "r", 0, "PushEvent"⟩], 1) ∧
    ([(⟨"o", "r", 0, "PushEvent"⟩ : Row)], (1 : Nat)) ≠ (([] : List Row), 0) := by
  decide

/-- C2 (amended): the insert step drops an event exactly when its whole-day
age `(now - created_at).days` exceeds 7, which happens exactly when its age
is at least 8 days (8 * 86400 seconds); a dropped event leaves the store
unchanged, and any younger event is appended to the store. -/
theorem C2_amended_freshness (cap : Nat) (now : ℤ) (cfg : RepoCfg)
    (st : List Row × Nat) (ev : Event) :
    (tdDays (now - ev.created_at) > 7 ↔ 8 * 86400 ≤ now - ev.created_at) ∧
    (8 * 86400 ≤ now - ev.created_at → insertStep cap now cfg st ev = st) ∧
    (now - ev.created_at < 8 * 86400 →
      ∃ st2 : List Row × Nat, insertStep cap now cfg st ev = (st2.1 ++ [mkRow cfg ev], st2.2 + 1)) := by
  have hiff : tdDays (now - ev.created_at) > 7 ↔ 8 * 86400 ≤ now - ev.created_at := by
    unfold tdDays
    rw [Int.fdiv_eq_ediv _ (by norm_num : (0 : ℤ) ≤ 86400)]
    omega
  refine ⟨hiff, ?_, ?_⟩
  · intro h
    unfold insertStep
    rw [if_pos (hiff.mpr h)]
  · intro h
    have hnot : ¬ tdDays (now - ev.created_at) > 7 := fun hc => absurd (hiff.mp hc) (by omega)
    unfold insertStep
    rw [if_neg hnot]
    exact ⟨_, rfl⟩

theorem C2_amended_freshness_witness :
    insertStep 500 700000 ⟨"o", "r"⟩ ([], 0) ⟨"E", 0⟩ = ([], 0) :=
  (C2_amended_freshness 500 700000 ⟨"o", "r"⟩ ([], 0) ⟨"E", 0⟩).2.1 (by decide)

/-- C3: when a fresh event is inserted while the store already holds at
least `cap` records (with the count agreeing with the store size), exactly
one record is evicted before the new one is inserted, and the evicted record
is one carrying the smallest timestamp across the entire store; in
particular with capacity 3, inserting fresh events at t = 1, 2, 3, 4 leaves
the store holding exactly the events at t = 2, 3, 4. -/
theorem C3_evict_oldest :
    (∀ (cap : Nat) (now : ℤ) (cfg : RepoCfg) (store : List Row) (count : Nat) (ev : Event),
      1 ≤ cap → count = store.length → cap ≤ count →
      ¬ tdDays (now - ev.created_at) > 7 →
      ∃ l1 x l2, store = l1 ++ x :: l2 ∧
        insertStep cap now cfg (store, count) ev = (l1 ++ l2 ++ [mkRow cfg ev], count) ∧
        ∀ y ∈ store, x.timestamp ≤ y.timestamp) ∧
    processRepo 3 100 ⟨"o", "r"⟩ [⟨"E", 1⟩, ⟨"E", 2⟩, ⟨"E", 3⟩, ⟨"E", 4⟩] ([], 0) =
      ([⟨"o", "r", 2, "E"⟩, ⟨"o", "r", 3, "E"⟩, ⟨"o", "r", 4, "E"⟩], 3) := by
  constructor
  · intro cap now cfg store count ev hcap hcount hfull hfresh
    have hne : store ≠ [] := by
      intro he
      subst he
      simp at hcount
      omega
    obtain ⟨l1, x, l2, hdc, hdel, hmin⟩ := deleteOldest_spec store hne
    refine ⟨l1, x, l2, hdc, ?_, hmin⟩
    unfold insertStep
    rw [if_neg hfresh]
    have hge : count ≥ cap := hfull
    simp only [hge, ge_iff_le, if_pos, hdel]
    have hc1 : count - 1 + 1 = count := by omega
    rw [hc1, List.append_assoc]
  · decide

theorem C3_evict_oldest_witness :
    ∃ l1 x l2, [(⟨"a", "b", 5, "T"⟩ : Row)] = l1 ++ x :: l2 ∧
      insertStep 1 100 ⟨"a", "b"⟩ ([⟨"a", "b", 5, "T"⟩], 1) ⟨"U", 6⟩ =
        (l1 ++ l2 ++ [mkRow ⟨"a", "b"⟩ ⟨"U", 6⟩], 1) ∧
      ∀ y ∈ [(⟨"a", "b", 5, "T"⟩ : Row)], x.timestamp ≤ y.timestamp :=
  C3_evict_oldest.1 1 100 ⟨"a", "b"⟩ [⟨"a", "b", 5, "T"⟩] 1 ⟨"U", 6⟩
    (by decide) (by decide) (by decide) (by decide)

/-! ### Aggregation lemmas -/

lemma dtt_eq (delta : String) (hvalid : validUnit delta = true) (x : ℚ) :
    date_transform_to x delta = some (convertUnit delta x) := by
  simp only [validUnit, Bool.or_eq_true, beq_iff_eq] at hvalid
  rcases hvalid with (h | h) | h <;> subst h <;> rfl

lemma convertDeltas_eq (delta : String) (hvalid : validUnit delta = true) (l : List ℤ) :
    convertDeltas delta l = some (l.map (fun d : ℤ => convertUnit delta (d : ℚ))) := by
  induction l with
  | nil => rfl
  | cons d rest ih => simp [convertDeltas, dtt_eq delta hvalid, ih]

lemma avgForType_eq (delta : String) (hvalid : validUnit delta = true) (times : List ℤ) :
    avgForType delta times = some (avgValue delta times) := by
  unfold avgForType avgValue
  by_cases hl : times.length < 2
  · simp [hl]
  · simp [hl, convertDeltas_eq delta hvalid]

lemma mapTypes_eq (delta : String) (hvalid : validUnit delta = true)
    (l : List (String × List ℤ)) :
    mapTypes delta l = some (l.map (fun kt => (kt.1, avgValue delta kt.2))) := by
  induction l with
  | nil => rfl
  | cons kt rest ih =>
    obtain ⟨t, times⟩ := kt
    simp [mapTypes, avgForType_eq delta hvalid, ih]

lemma calculate_eq (delta : String) (hvalid : validUnit delta = true) (events : List Row) :
    calculate_average_time delta events =
      some (if events.isEmpty then none
            else some ((type_times events).map (fun kt => (kt.1, avgValue delta kt.2)))) := by
  unfold calculate_average_time
  by_cases he : events.isEmpty <;> simp [he, mapTypes_eq delta hvalid]

lemma alistGet_map {α β : Type} (f : α → β) (l : List (String × α)) (k : String) :
    alistGet (l.map (fun kv => (kv.1, f kv.2))) k = (alistGet l k).map f := by
  induction l with
  | nil => rfl
  | cons kv rest ih =>
    obtain ⟨k2, v⟩ := kv
    by_cases hk : k2 = k <;> simp [alistGet, hk, ih]

lemma alistGet_addToGroup (acc : List (String × List ℤ)) (ty : String) (x : ℤ) (t : String) :
    alistGet (addToGroup acc ty x) t =
      if ty = t then some ((alistGet acc t).getD [] ++ [x]) else alistGet acc t := by
  induction acc with
  | nil => by_cases h : ty = t <;> simp [addToGroup, alistGet, h]
  | cons kv rest ih =>
    obtain ⟨k, xs⟩ := kv
    by_cases hk : k = ty
    · subst hk
      by_cases ht : k = t <;> simp [addToGroup, alistGet, ht]
    · by_cases ht : k = t
      · subst ht
        have hyt : ¬ ty = k := fun h => hk h.symm
        simp [addToGroup, alistGet, hk, hyt]
      · simp [addToGroup, alistGet, hk, ht, ih]

lemma type_times_foldl (t : String) (events : List Row) :
    ∀ acc, alistGet (events.foldl (fun a e => addToGroup a e.type e.timestamp) acc) t =
      if (events.filter (fun e => e.type == t)).isEmpty then alistGet acc t
      else some ((alistGet acc t).getD [] ++
        (events.filter (fun e => e.type == t)).map Row.timestamp) := by
  induction events with
  | nil => intro acc; simp
  | cons e rest ih =>
    intro acc
    simp only [List.foldl_cons]
    rw [ih]
    by_cases hty : e.type = t
    · have hf : (e :: rest).filter (fun e => e.type == t) =
          e :: rest.filter (fun e => e.type == t) := by
        simp [List.filter_cons, hty]
      rw [hf]
      by_cases hrest : (rest.filter (fun e => e.type == t)).isEmpty
      · have hrest2 : rest.filter (fun e => e.type == t) = [] := List.isEmpty_iff.mp hrest
        simp [hrest2, alistGet_addToGroup, hty]
      · simp [hrest, alistGet_addToGroup, hty]
    · have hf : (e :: rest).filter (fun e => e.type == t) =
          rest.filter (fun e => e.type == t) := by
        simp [List.filter_cons, hty]
      rw [hf, alistGet_addToGroup]
      simp [hty]

lemma type_times_lookup (events : List Row) (t : String) :
    alistGet (type_times events) t =
      if (events.filter (fun e => e.type == t)).isEmpty then none
      else some ((events.filter (fun e => e.type == t)).map Row.timestamp) := by
  have h := type_times_foldl t events []
  simpa [type_times, alistGet] using h

lemma consecDeltas_cons (a b : ℤ) (l : List ℤ) :
    consecDeltas (a :: b :: l) = (b - a) :: consecDeltas (b :: l) := rfl

lemma consecDeltas_length (l : List ℤ) : (consecDeltas l).length = l.length - 1 := by
  induction l with
  | nil => rfl
  | cons a rest ih =>
    cases rest with
    | nil => rfl
    | cons b l2 =>
      rw [consecDeltas_cons]
      simp only [List.length_cons] at ih ⊢
      omega

/-! ### Claims C4, C5, C9: the aggregation function -/

/-- Modelled from the claim: for one event type, the mean over the
unit-converted consecutive deltas of its timestamps, rounded to three
decimal places only once, at the end. -/
def specTypeAverage (delta : String) (times : List ℤ) : ℚ :=
  round3 ((((consecDeltas times).map (fun d : ℤ => convertUnit delta (d : ℚ))).sum) /
    (((consecDeltas times).map (fun d : ℤ => convertUnit delta (d : ℚ))).length : ℚ))

/-- C4: for an input ordered by ascending timestamp and an event type with
n at least 2 events, the result for that type is the consecutive deltas of
its timestamps, each converted to the configured unit, averaged over the
n - 1 deltas, and rounded to three decimal places, with rounding applied
only to the final averaged value. -/
theorem C4_per_type_mean (delta : String) (events : List Row) (t : String)
    (hvalid : validUnit delta = true)
    (hsorted : List.Chain' (fun a b => a.timestamp ≤ b.timestamp) events)
    (hn : 2 ≤ ((events.filter (fun e => e.type == t)).map Row.timestamp).length) :
    ∃ result, calculate_average_time delta events = some (some result) ∧
      alistGet result t =
        some (specTypeAverage delta ((events.filter (fun e => e.type == t)).map Row.timestamp)) := by
  have hfne : events.filter (fun e => e.type == t) ≠ [] := by
    intro h
    rw [h] at hn
    simp at hn
  have hene : events.isEmpty = false := by
    rcases events with _ | ⟨e, rest⟩
    · simp at hfne
    · rfl
  rw [calculate_eq delta hvalid, hene]
  simp only [Bool.false_eq_true, if_false]
  refine ⟨_, rfl, ?_⟩
  rw [alistGet_map, type_times_lookup]
  rw [if_neg (by simpa using hfne)]
  simp only [Option.map_some']
  congr 1
  have hlen : ¬ ((events.filter (fun e => e.type == t)).map Row.timestamp).length < 2 := by
    omega
  unfold avgValue specTypeAverage
  rw [if_neg hlen]
  simp [List.length_map, consecDeltas_length]

theorem C4_per_type_mean_witness :
    ∃ result, calculate_average_time "minute" [⟨"o", "r", 0, "E"⟩, ⟨"o", "r", 60, "E"⟩] =
        some (some result) ∧
      alistGet result "E" =
        some (specTypeAverage "minute"
          (([(⟨"o", "r", 0, "E"⟩ : Row), ⟨"o", "r", 60, "E"⟩].filter
            (fun e => e.type == "E")).map Row.timestamp)) :=
  C4_per_type_mean "minute" [⟨"o", "r", 0, "E"⟩, ⟨"o", "r", 60, "E"⟩] "E"
    (by decide) (by simp [List.chain'_cons]) (by decide)

/-- C5: for a non-empty input and an event type present in the input with
fewer than 2 events of that type, the result maps that type to exactly 0. -/
theorem C5_single_sample_zero (delta : String) (events : List Row) (t : String)
    (hvalid : validUnit delta = true)
    (hfne : events.filter (fun e => e.type == t) ≠ [])
    (hlt : ((events.filter (fun e => e.type == t)).map Row.timestamp).length < 2) :
    ∃ result, calculate_average_time delta events = some (some result) ∧
      alistGet result t = some 0 := by
  have hene : events.isEmpty = false := by
    rcases events with _ | ⟨e, rest⟩
    · simp at hfne
    · rfl
  rw [calculate_eq delta hvalid, hene]
  simp only [Bool.false_eq_true, if_false]
  refine ⟨_, rfl, ?_⟩
  rw [alistGet_map, type_times_lookup]
  rw [if_neg (by simpa using hfne)]
  simp only [Option.map_some']
  congr 1
  unfold avgValue
  rw [if_pos hlt]

theorem C5_single_sample_zero_witness :
    ∃ result, calculate_average_time "second" [⟨"o", "r", 5, "E"⟩] = some (some result) ∧
      alistGet result "E" = some 0 :=
  C5_single_sample_zero "second" [⟨"o", "r", 5, "E"⟩] "E" (by decide) (by decide) (by decide)

lemma range_map_arith (t0 d : ℤ) (k : Nat) :
    (List.range (k + 1)).map (fun i : Nat => t0 + (i : ℤ) * d) =
      t0 :: (List.range k).map (fun i : Nat => (t0 + d) + (i : ℤ) * d) := by
  rw [List.range_succ_eq_map, List.map_cons, List.map_map]
  simp only [Nat.cast_zero, zero_mul, add_zero]
  congr 1
  apply List.map_congr_left
  intro i _
  simp only [Function.comp_apply]
  push_cast
  ring

lemma consecDeltas_arith (d : ℤ) : ∀ (n : Nat) (t0 : ℤ),
    consecDeltas ((List.range n).map (fun i : Nat => t0 + (i : ℤ) * d)) = List.replicate (n - 1) d := by
  intro n
  induction n with
  | zero => intro t0; rfl
  | succ m ih =>
    intro t0
    cases m with
    | zero => rfl
    | succ k =>
      rw [range_map_arith t0 d (k + 1), range_map_arith (t0 + d) d k, consecDeltas_cons,
        ← range_map_arith (t0 + d) d k, ih (t0 + d)]
      have ht : t0 + d - t0 = d := by ring
      rw [ht]
      rfl

/-- C9 counterexample: two events of one type 1 second apart with unit hour.
The claim says the average equals the delta in the configured unit, here
1/3600 hours, but the code rounds the averaged value to three decimal
places and returns 0. -/
theorem C9_counterexample :
    calculate_average_time "hour" [⟨"o", "r", 0, "E"⟩, ⟨"o", "r", 1, "E"⟩] =
      some (some [("E", 0)]) ∧
    convertUnit "hour" ((1 : ℤ) : ℚ) ≠ 0 := by
  with_unfolding_all decide

/-- C9 (amended): applying the aggregation to n ≥ 2 events of a single type
whose consecutive timestamps differ by a fixed delta d yields, for that
type, the delta expressed in the configured unit and rounded to three
decimal places; in particular 5 events 60 seconds apart with unit minute
yield exactly 1. -/
theorem C9_uniform_delta_rounded :
    (∀ (delta o r ty : String) (t0 d : ℤ) (n : Nat), validUnit delta = true → 2 ≤ n →
      ∃ result,
        calculate_average_time delta
            ((List.range n).map (fun i : Nat => (⟨o, r, t0 + (i : ℤ) * d, ty⟩ : Row))) =
          some (some result) ∧
        alistGet result ty = some (round3 (convertUnit delta (d : ℚ)))) ∧
    calculate_average_time "minute"
        [⟨"o", "r", 0, "E"⟩, ⟨"o", "r", 60, "E"⟩, ⟨"o", "r", 120, "E"⟩,
          ⟨"o", "r", 180, "E"⟩, ⟨"o", "r", 240, "E"⟩] = some (some [("E", 1)]) := by
  constructor
  · intro delta o r ty t0 d n hvalid hn
    set events := (List.range n).map (fun i : Nat => (⟨o, r, t0 + (i : ℤ) * d, ty⟩ : Row)) with hev
    have hfilter : events.filter (fun e => e.type == ty) = events := by
      rw [List.filter_eq_self]
      intro e he
      rw [hev] at he
      obtain ⟨i, hi, rfl⟩ := List.mem_map.mp he
      simp
    have hene : events.isEmpty = false := by
      rw [List.isEmpty_eq_false, hev]
      intro hcon
      have hlen := congrArg List.length hcon
      simp at hlen
      omega
    rw [calculate_eq delta hvalid, hene]
    simp only [Bool.false_eq_true, if_false]
    refine ⟨_, rfl, ?_⟩
    rw [alistGet_map, type_times_lookup, hfilter, hene]
    simp only [Bool.false_eq_true, if_false, Option.map_some']
    congr 1
    have htimes : events.map Row.timestamp = (List.range n).map (fun i : Nat => t0 + (i : ℤ) * d) := by
      rw [hev, List.map_map]
      rfl
    rw [htimes]
    unfold avgValue
    rw [if_neg (by simp only [List.length_map, List.length_range]; omega)]
    rw [consecDeltas_arith d n t0, List.map_replicate, List.sum_replicate]
    simp only [List.length_map, List.length_range]
    rw [nsmul_eq_mul, mul_div_cancel_left₀ _ (by
      exact_mod_cast Nat.cast_ne_zero.mpr (by omega : n - 1 ≠ 0) : ((n - 1 : ℕ) : ℚ) ≠ 0)]
  · with_unfolding_all decide

theorem C9_uniform_delta_rounded_witness :
    ∃ result,
      calculate_average_time "second"
          ((List.range 2).map (fun i : Nat => (⟨"o", "r", 0 + (i : ℤ) * 5, "E"⟩ : Row))) =
        some (some result) ∧
      alistGet result "E" = some (round3 (convertUnit "second" ((5 : ℤ) : ℚ))) :=
  C9_uniform_delta_rounded.1 "second" "o" "r" "E" 0 5 2 (by decide) (by decide)

/-! ### Association list lemmas for the statistics endpoint -/

lemma alistGet_set_self {α : Type} (m : List (String × α)) (k : String) (v : α) :
    alistGet (alistSet m k v) k = some v := by
  induction m with
  | nil => simp [alistSet, alistGet]
  | cons kv rest ih =>
    obtain ⟨k2, v2⟩ := kv
    by_cases h : k2 = k <;> simp [alistSet, alistGet, h, ih]

lemma alistGet_set_other {α : Type} (m : List (String × α)) (k k2 : String) (v : α)
    (h : k ≠ k2) : alistGet (alistSet m k v) k2 = alistGet m k2 := by
  induction m with
  | nil => simp [alistSet, alistGet, h]
  | cons kv rest ih =>
    obtain ⟨k3, v3⟩ := kv
    by_cases h3 : k3 = k
    · subst h3
      simp [alistSet, alistGet, h]
    · simp [alistSet, alistGet, h3, ih]

lemma alistSet_set {α : Type} (m : List (String × α)) (k : String) (v1 v2 : α) :
    alistSet (alistSet m k v1) k v2 = alistSet m k v2 := by
  induction m with
  | nil => simp [alistSet]
  | cons kv rest ih =>
    obtain ⟨k3, v3⟩ := kv
    by_cases h : k3 = k <;> simp [alistSet, h, ih]

lemma alistSet_get_same {α : Type} (m : List (String × α)) (k : String) (v : α)
    (h : alistGet m k = some v) : alistSet m k v = m := by
  induction m with
  | nil => simp [alistGet] at h
  | cons kv rest ih =>
    obtain ⟨k3, v3⟩ := kv
    by_cases h3 : k3 = k
    · simp [alistGet, h3] at h
      simp [alistSet, h3, h]
    · simp [alistGet, h3] at h
      simp [alistSet, h3, ih h]

/-- `result[repo][typ] = average_time` with the defaultdict supplying `{}`:
the step function of the statistics write loop. -/
def innerWrite (k : String) (res : List (String × List (String × ℚ))) (tv : String × ℚ) :
    List (String × List (String × ℚ)) :=
  alistSet res k (alistSet ((alistGet res k).getD []) tv.1 tv.2)

lemma innerWrite_get_other (k k2 : String) (h : k ≠ k2) (stats : List (String × ℚ)) :
    ∀ res, alistGet (stats.foldl (innerWrite k) res) k2 = alistGet res k2 := by
  induction stats with
  | nil => intro res; rfl
  | cons tv rest ih =>
    intro res
    simp only [List.foldl_cons]
    rw [ih]
    exact alistGet_set_other _ _ _ _ h

lemma innerWrite_fold_some (k : String) (stats : List (String × ℚ)) :
    ∀ res inner, alistGet res k = some inner →
      stats.foldl (innerWrite k) res =
        alistSet res k (stats.foldl (fun m tv => alistSet m tv.1 tv.2) inner) := by
  induction stats with
  | nil =>
    intro res inner h
    simp only [List.foldl_nil]
    rw [alistSet_get_same res k inner h]
  | cons tv rest ih =>
    intro res inner h
    simp only [List.foldl_cons]
    have h1 : innerWrite k res tv = alistSet res k (alistSet inner tv.1 tv.2) := by
      unfold innerWrite
      rw [h]
      rfl
    rw [h1, ih _ _ (alistGet_set_self _ _ _), alistSet_set]

lemma innerWrite_fold_eq (k : String) (stats : List (String × ℚ)) (res :
    List (String × List (String × ℚ))) (hne : stats ≠ []) :
    stats.foldl (innerWrite k) res =
      alistSet res k
        (stats.foldl (fun m tv => alistSet m tv.1 tv.2) ((alistGet res k).getD [])) := by
  cases stats with
  | nil => exact absurd rfl hne
  | cons tv rest =>
    simp only [List.foldl_cons]
    have h1 : innerWrite k res tv =
        alistSet res k (alistSet ((alistGet res k).getD []) tv.1 tv.2) := rfl
    rw [h1, innerWrite_fold_some k rest _ _ (alistGet_set_self _ _ _), alistSet_set]

lemma innerFold_get_other (t : String) (stats : List (String × ℚ))
    (h : ∀ kv ∈ stats, kv.1 ≠ t) :
    ∀ m, alistGet (stats.foldl (fun m tv => alistSet m tv.1 tv.2) m) t = alistGet m t := by
  induction stats with
  | nil => intro m; rfl
  | cons kv rest ih =>
    intro m
    simp only [List.foldl_cons]
    rw [ih (fun kv2 h2 => h kv2 (List.mem_cons_of_mem _ h2))]
    exact alistGet_set_other _ _ _ _ (h kv (List.mem_cons_self _ _))

lemma innerFold_lookup (stats : List (String × ℚ)) (t : String) (v : ℚ)
    (hnd : (stats.map Prod.fst).Nodup) (h : alistGet stats t = some v) :
    ∀ m, alistGet (stats.foldl (fun m tv => alistSet m tv.1 tv.2) m) t = some v := by
  induction stats with
  | nil => simp [alistGet] at h
  | cons kv rest ih =>
    intro m
    obtain ⟨k, w⟩ := kv
    simp only [List.map_cons, List.nodup_cons] at hnd
    simp only [List.foldl_cons]
    by_cases hk : k = t
    · subst hk
      simp only [alistGet, if_pos rfl] at h
      have hrest : ∀ kv2 ∈ rest, kv2.1 ≠ k :=
        fun kv2 h2 hc => hnd.1 (hc ▸ List.mem_map.mpr ⟨kv2, h2, rfl⟩)
      rw [innerFold_get_other k rest hrest, alistGet_set_self]
      exact congrArg some (Option.some.inj h)
    · simp only [alistGet, if_neg hk] at h
      exact ih hnd.2 h _

/-- The per-repository statistics dict produced for a valid unit. -/
def repoStats (delta : String) (store : List Row) (o r : String) : List (String × ℚ) :=
  (type_times (get_db_query store o r)).map (fun kt => (kt.1, avgValue delta kt.2))

lemma get_db_statistics_eq (delta : String) (store : List Row) (o r : String)
    (hvalid : validUnit delta = true) :
    get_db_statistics delta store o r =
      some (if (get_db_query store o r).isEmpty then none
            else some (repoStats delta store o r)) := by
  unfold get_db_statistics repoStats
  rw [calculate_eq delta hvalid]

lemma apiFold_step_empty (delta : String) (store : List Row) (c : RepoCfg)
    (rest : List RepoCfg) (acc : List (String × List (String × ℚ)))
    (hvalid : validUnit delta = true)
    (hq : (get_db_query store c.owner c.repo).isEmpty = true) :
    apiFold delta store (c :: rest) acc = apiFold delta store rest (alistSet acc c.repo []) := by
  simp only [apiFold]
  rw [get_db_statistics_eq delta store c.owner c.repo hvalid, if_pos hq]

lemma apiFold_step_stats (delta : String) (store : List Row) (c : RepoCfg)
    (rest : List RepoCfg) (acc : List (String × List (String × ℚ)))
    (hvalid : validUnit delta = true)
    (hq : (get_db_query store c.owner c.repo).isEmpty = false) :
    apiFold delta store (c :: rest) acc =
      apiFold delta store rest
        ((repoStats delta store c.owner c.repo).foldl (innerWrite c.repo) acc) := by
  simp only [apiFold]
  rw [get_db_statistics_eq delta store c.owner c.repo hvalid, if_neg (by simp [hq])]
  rfl

lemma apiFold_preserve (delta : String) (store : List Row) (k : String)
    (hvalid : validUnit delta = true) :
    ∀ (repos : List RepoCfg), (∀ c ∈ repos, c.repo ≠ k) →
      ∀ acc, ∃ res, apiFold delta store repos acc = some res ∧
        alistGet res k = alistGet acc k := by
  intro repos
  induction repos with
  | nil => exact fun _ acc => ⟨acc, rfl, rfl⟩
  | cons c rest ih =>
    intro hk acc
    have hck : c.repo ≠ k := hk c (List.mem_cons_self _ _)
    have hrest : ∀ c2 ∈ rest, c2.repo ≠ k := fun c2 h2 => hk c2 (List.mem_cons_of_mem _ h2)
    by_cases hq : (get_db_query store c.owner c.repo).isEmpty
    · obtain ⟨res, h1, h2⟩ := ih hrest (alistSet acc c.repo [])
      refine ⟨res, ?_, ?_⟩
      · rw [apiFold_step_empty delta store c rest acc hvalid hq, h1]
      · rw [h2, alistGet_set_other _ _ _ _ hck]
    · rw [Bool.not_eq_true] at hq
      obtain ⟨res, h1, h2⟩ :=
        ih hrest ((repoStats delta store c.owner c.repo).foldl (innerWrite c.repo) acc)
      refine ⟨res, ?_, ?_⟩
      · rw [apiFold_step_stats delta store c rest acc hvalid hq, h1]
      · rw [h2, innerWrite_get_other c.repo k hck]

lemma apiFold_empty_repo (delta : String) (store : List Row) (cfg : RepoCfg)
    (hvalid : validUnit delta = true)
    (hq : get_db_query store cfg.owner cfg.repo = []) :
    ∀ (repos : List RepoCfg), (repos.map RepoCfg.repo).Nodup → cfg ∈ repos →
      ∀ acc, ∃ res, apiFold delta store repos acc = some res ∧
        alistGet res cfg.repo = some [] := by
  intro repos
  induction repos with
  | nil =>
    intro _ h
    simp at h
  | cons c rest ih =>
    intro hnd hmem acc
    simp only [List.map_cons, List.nodup_cons] at hnd
    rcases List.mem_cons.mp hmem with heq | hmem2
    · subst heq
      have hqe : (get_db_query store cfg.owner cfg.repo).isEmpty = true := by
        rw [hq]
        rfl
      rw [apiFold_step_empty delta store cfg rest acc hvalid hqe]
      have hrest : ∀ c2 ∈ rest, c2.repo ≠ cfg.repo :=
        fun c2 h2 hc => hnd.1 (hc ▸ List.mem_map.mpr ⟨c2, h2, rfl⟩)
      obtain ⟨res, h1, h2⟩ :=
        apiFold_preserve delta store cfg.repo hvalid rest hrest (alistSet acc cfg.repo [])
      exact ⟨res, h1, by rw [h2, alistGet_set_self]⟩
    · by_cases hqc : (get_db_query store c.owner c.repo).isEmpty
      · rw [apiFold_step_empty delta store c rest acc hvalid hqc]
        exact ih hnd.2 hmem2 _
      · rw [Bool.not_eq_true] at hqc
        rw [apiFold_step_stats delta store c rest acc hvalid hqc]
        exact ih hnd.2 hmem2 _

/-! ### Claim C6: empty input and empty repositories -/

/-- C6: the aggregation function applied to an empty input returns the
distinguished no-statistics value (Python None, distinct from an empty
dict), and the statistics endpoint renders every tracked repository whose
query returns no rows as an empty sub-dict under its repo-name key rather
than omitting it (stated for configurations whose repo names are distinct,
so that the key belongs to that repository alone). -/
theorem C6_empty_semantics :
    (∀ delta, calculate_average_time delta [] = some none) ∧
    (some (none : Option (List (String × ℚ))) ≠ some (some [])) ∧
    (∀ (delta : String) (repos : List RepoCfg) (store : List Row) (cfg : RepoCfg),
      validUnit delta = true → (repos.map RepoCfg.repo).Nodup → cfg ∈ repos →
      get_db_query store cfg.owner cfg.repo = [] →
      ∃ res, get_api_statistics delta repos store = some res ∧
        alistGet res cfg.repo = some []) := by
  refine ⟨fun delta => rfl, by simp, ?_⟩
  intro delta repos store cfg hvalid hnd hmem hq
  exact apiFold_empty_repo delta store cfg hvalid hq repos hnd hmem []

theorem C6_empty_semantics_witness :
    ∃ res, get_api_statistics "second" [⟨"o", "r"⟩] [] = some res ∧
      alistGet res "r" = some [] :=
  C6_empty_semantics.2.2 "second" [⟨"o", "r"⟩] [] ⟨"o", "r"⟩
    (by decide) (by decide) (by decide) (by decide)

/-! ### Claim C10: keying by repo name alone -/

lemma addToGroup_ne_nil (acc : List (String × List ℤ)) (t : String) (x : ℤ) :
    addToGroup acc t x ≠ [] := by
  cases acc with
  | nil => simp [addToGroup]
  | cons kv rest =>
    obtain ⟨k, xs⟩ := kv
    by_cases h : k = t <;> simp [addToGroup, h]

lemma foldl_addToGroup_ne_nil (events : List Row) :
    ∀ acc, acc ≠ [] → events.foldl (fun a e => addToGroup a e.type e.timestamp) acc ≠ [] := by
  induction events with
  | nil => exact fun _ h => h
  | cons e rest ih =>
    intro acc _
    simp only [List.foldl_cons]
    exact ih _ (addToGroup_ne_nil _ _ _)

lemma type_times_ne_nil (events : List Row) (h : events ≠ []) : type_times events ≠ [] := by
  cases events with
  | nil => exact absurd rfl h
  | cons e rest =>
    unfold type_times
    simp only [List.foldl_cons]
    exact foldl_addToGroup_ne_nil rest _ (addToGroup_ne_nil _ _ _)

lemma repoStats_ne_nil (delta : String) (store : List Row) (o r : String)
    (h : (get_db_query store o r).isEmpty = false) : repoStats delta store o r ≠ [] := by
  unfold repoStats
  intro hc
  exact type_times_ne_nil _ (List.isEmpty_eq_false.mp h) (List.map_eq_nil_iff.mp hc)

lemma addToGroup_keys (acc : List (String × List ℤ)) (t : String) (x : ℤ) :
    (addToGroup acc t x).map Prod.fst =
      if t ∈ acc.map Prod.fst then acc.map Prod.fst else acc.map Prod.fst ++ [t] := by
  induction acc with
  | nil => simp [addToGroup]
  | cons kv rest ih =>
    obtain ⟨k, xs⟩ := kv
    by_cases hk : k = t
    · subst hk
      simp [addToGroup]
    · simp only [addToGroup, if_neg hk, List.map_cons, ih]
      by_cases hm : t ∈ List.map Prod.fst rest
      · rw [if_pos hm, if_pos (List.mem_cons_of_mem _ hm)]
      · rw [if_neg hm, if_neg (by
          intro hcon
          rcases List.mem_cons.mp hcon with h1 | h1
          · exact hk h1.symm
          · exact hm h1)]
        simp

lemma type_times_keys_nodup_aux (events : List Row) :
    ∀ acc : List (String × List ℤ), (acc.map Prod.fst).Nodup →
      ((events.foldl (fun a e => addToGroup a e.type e.timestamp) acc).map Prod.fst).Nodup := by
  induction events with
  | nil => exact fun _ h => h
  | cons e rest ih =>
    intro acc h
    simp only [List.foldl_cons]
    apply ih
    rw [addToGroup_keys]
    by_cases hm : e.type ∈ acc.map Prod.fst
    · rw [if_pos hm]
      exact h
    · rw [if_neg hm, List.nodup_append]
      refine ⟨h, List.nodup_singleton _, ?_⟩
      intro a ha hb
      simp at hb
      subst hb
      exact hm ha

lemma type_times_keys_nodup (events : List Row) : ((type_times events).map Prod.fst).Nodup :=
  type_times_keys_nodup_aux events [] (by simp)

lemma repoStats_keys_nodup (delta : String) (store : List Row) (o r : String) :
    ((repoStats delta store o r).map Prod.fst).Nodup := by
  unfold repoStats
  rw [List.map_map]
  exact type_times_keys_nodup (get_db_query store o r)

lemma apiFold_two_same (delta : String) (store : List Row) (o1 o2 r : String)
    (hvalid : validUnit delta = true) :
    ∃ w, get_api_statistics delta [⟨o1, r⟩, ⟨o2, r⟩] store = some [(r, w)] ∧
      ((get_db_query store o2 r).isEmpty = true → w = []) ∧
      ((get_db_query store o2 r).isEmpty = false →
        ∃ w1, w = (repoStats delta store o2 r).foldl (fun m tv => alistSet m tv.1 tv.2) w1) := by
  by_cases hq1 : (get_db_query store o1 r).isEmpty
  · have hstep1 : get_api_statistics delta [⟨o1, r⟩, ⟨o2, r⟩] store =
        apiFold delta store [⟨o2, r⟩] [(r, [])] := by
      unfold get_api_statistics
      rw [apiFold_step_empty delta store ⟨o1, r⟩ [⟨o2, r⟩] [] hvalid hq1]
      rfl
    by_cases hq2 : (get_db_query store o2 r).isEmpty
    · refine ⟨[], ?_, ?_, ?_⟩
      · rw [hstep1, apiFold_step_empty delta store ⟨o2, r⟩ [] [(r, [])] hvalid hq2]
        simp [apiFold, alistSet]
      · exact fun _ => rfl
      · intro hcon
        rw [hq2] at hcon
        exact absurd hcon (by decide)
    · rw [Bool.not_eq_true] at hq2
      refine ⟨(repoStats delta store o2 r).foldl (fun m tv => alistSet m tv.1 tv.2) [],
        ?_, ?_, ?_⟩
      · rw [hstep1, apiFold_step_stats delta store ⟨o2, r⟩ [] [(r, [])] hvalid hq2,
          innerWrite_fold_eq _ _ _ (repoStats_ne_nil delta store o2 r hq2)]
        simp [apiFold, alistSet, alistGet]
      · intro hcon
        rw [hcon] at hq2
        exact absurd hq2 (by decide)
      · exact fun _ => ⟨[], rfl⟩
  · rw [Bool.not_eq_true] at hq1
    have hstep1 : get_api_statistics delta [⟨o1, r⟩, ⟨o2, r⟩] store =
        apiFold delta store [⟨o2, r⟩]
          [(r, (repoStats delta store o1 r).foldl (fun m tv => alistSet m tv.1 tv.2) [])] := by
      unfold get_api_statistics
      rw [apiFold_step_stats delta store ⟨o1, r⟩ [⟨o2, r⟩] [] hvalid hq1,
        innerWrite_fold_eq _ _ _ (repoStats_ne_nil delta store o1 r hq1)]
      rfl
    by_cases hq2 : (get_db_query store o2 r).isEmpty
    · refine ⟨[], ?_, ?_, ?_⟩
      · rw [hstep1, apiFold_step_empty delta store ⟨o2, r⟩ [] _ hvalid hq2]
        simp [apiFold, alistSet]
      · exact fun _ => rfl
      · intro hcon
        rw [hq2] at hcon
        exact absurd hcon (by decide)
    · rw [Bool.not_eq_true] at hq2
      refine ⟨(repoStats delta store o2 r).foldl (fun m tv => alistSet m tv.1 tv.2)
          ((repoStats delta store o1 r).foldl (fun m tv => alistSet m tv.1 tv.2) []),
        ?_, ?_, ?_⟩
      · rw [hstep1, apiFold_step_stats delta store ⟨o2, r⟩ [] _ hvalid hq2,
          innerWrite_fold_eq _ _ _ (repoStats_ne_nil delta store o2 r hq2)]
        simp [apiFold, alistSet, alistGet]
      · intro hcon
        rw [hcon] at hq2
        exact absurd hq2 (by decide)
      · exact fun _ =>
          ⟨(repoStats delta store o1 r).foldl (fun m tv => alistSet m tv.1 tv.2) [], rfl⟩

/-- C10: the statistics endpoint keys its result by the repo name alone.
For a configuration with two tracked repositories sharing the repo name
but with different owners, both are written to the same key: the result
has the single key r; if the second repository has no retained records its
empty sub-dict replaces the entire entry, and for an event type present in
both repositories, the final value under that type is the second one. -/
theorem C10_repo_name_collision (delta o1 o2 r : String) (store : List Row)
    (hvalid : validUnit delta = true) (howners : o1 ≠ o2) :
    ∃ res, get_api_statistics delta [⟨o1, r⟩, ⟨o2, r⟩] store = some res ∧
      res.map Prod.fst = [r] ∧
      (get_db_query store o2 r = [] → res = [(r, [])]) ∧
      (∀ t v1 v2, alistGet (repoStats delta store o1 r) t = some v1 →
        alistGet (repoStats delta store o2 r) t = some v2 →
        alistGet ((alistGet res r).getD []) t = some v2) := by
  obtain ⟨w, hres, hempty, hstats⟩ := apiFold_two_same delta store o1 o2 r hvalid
  refine ⟨[(r, w)], hres, by simp, ?_, ?_⟩
  · intro hq
    rw [hempty (by simp [hq])]
  · intro t v1 v2 h1 h2
    by_cases hq2 : (get_db_query store o2 r).isEmpty
    · have hnil : repoStats delta store o2 r = [] := by
        unfold repoStats
        rw [List.isEmpty_iff.mp hq2]
        rfl
      rw [hnil] at h2
      simp [alistGet] at h2
    · rw [Bool.not_eq_true] at hq2
      obtain ⟨w1, hw⟩ := hstats hq2
      have hget : alistGet [(r, w)] r = some w := by simp [alistGet]
      rw [hget]
      simp only [Option.getD_some]
      rw [hw]
      exact innerFold_lookup (repoStats delta store o2 r) t v2
        (repoStats_keys_nodup delta store o2 r) h2 w1

theorem C10_repo_name_collision_witness :
    ∃ res, get_api_statistics "second" [⟨"a", "r"⟩, ⟨"b", "r"⟩] [] = some res ∧
      res.map Prod.fst = ["r"] ∧
      (get_db_query [] "b" "r" = [] → res = [("r", [])]) ∧
      (∀ t v1 v2, alistGet (repoStats "second" [] "a" "r") t = some v1 →
        alistGet (repoStats "second" [] "b" "r") t = some v2 →
        alistGet ((alistGet res "r").getD []) t = some v2) :=
  C10_repo_name_collision "second" "a" "b" "r" [] (by decide) (by decide)

/-! ### Claims C7 and C8: the update cycle -/

lemma runRepos_ok_list (cap : Nat) (now : ℤ) (front : List (RepoCfg × List Event)) :
    ∀ (rest : List (RepoCfg × FetchResult)) (st : List Row × Nat),
      runRepos cap now (front.map (fun p => (p.1, Except.ok p.2)) ++ rest) st =
        runRepos cap now rest (processAll cap now front st) := by
  induction front with
  | nil => intro rest st; rfl
  | cons p front2 ih =>
    intro rest st
    obtain ⟨cfg, evs⟩ := p
    simp only [List.map_cons, List.cons_append]
    rw [runRepos, ih]
    rfl

/-- C7: when the fetch of one tracked repository fails, the update cycle
stops at that repository (whatever comes after it is never processed), the
error propagates to the caller, and all rows already inserted for the
repositories processed earlier in the cycle remain in the table. -/
theorem C7_fetch_error_aborts (now : ℤ) (front : List (RepoCfg × List Event))
    (cfg : RepoCfg) (e : String) (post : List (RepoCfg × FetchResult)) (prev : List Row) :
    update_data now
        (front.map (fun p => (p.1, Except.ok p.2)) ++ (cfg, Except.error e) :: post) prev =
      (processAll CAPACITY now front ([], 0), some e) := by
  unfold update_data
  rw [runRepos_ok_list CAPACITY now front ((cfg, Except.error e) :: post) ([], 0)]
  rfl

lemma insertStep_mem (cap : Nat) (now : ℤ) (cfg : RepoCfg) (st : List Row × Nat) (ev : Event)
    (r : Row) (h : r ∈ (insertStep cap now cfg st ev).1) : r ∈ st.1 ∨ r = mkRow cfg ev := by
  unfold insertStep at h
  by_cases hst : tdDays (now - ev.created_at) > 7
  · rw [if_pos hst] at h
    exact Or.inl h
  · rw [if_neg hst] at h
    simp only [List.mem_append, List.mem_singleton] at h
    rcases h with h | h
    · left
      by_cases hc : st.2 ≥ cap
      · rw [if_pos hc] at h
        exact deleteOldest_subset st.1 r h
      · rw [if_neg hc] at h
        exact h
    · right
      exact h

lemma processRepo_mem (cap : Nat) (now : ℤ) (cfg : RepoCfg) (evs : List Event) :
    ∀ (st : List Row × Nat) (r : Row), r ∈ (processRepo cap now cfg evs st).1 →
      r ∈ st.1 ∨ ∃ ev ∈ evs, r = mkRow cfg ev := by
  induction evs with
  | nil => exact fun _ _ h => Or.inl h
  | cons e rest ih =>
    intro st r h
    rcases ih (insertStep cap now cfg st e) r (by simpa [processRepo] using h) with h1 | h1
    · rcases insertStep_mem cap now cfg st e r h1 with h2 | h2
      · exact Or.inl h2
      · exact Or.inr ⟨e, List.mem_cons_self _ _, h2⟩
    · obtain ⟨ev, hev, heq⟩ := h1
      exact Or.inr ⟨ev, List.mem_cons_of_mem _ hev, heq⟩

lemma processAll_mem (cap : Nat) (now : ℤ) (pairs : List (RepoCfg × List Event)) :
    ∀ (st : List Row × Nat) (r : Row), r ∈ (processAll cap now pairs st).1 →
      r ∈ st.1 ∨ ∃ p ∈ pairs, ∃ ev ∈ p.2, r = mkRow p.1 ev := by
  induction pairs with
  | nil => exact fun _ _ h => Or.inl h
  | cons p rest ih =>
    intro st r h
    rcases ih (processRepo cap now p.1 p.2 st) r (by simpa [processAll] using h) with h1 | h1
    · rcases processRepo_mem cap now p.1 p.2 st r h1 with h2 | h2
      · exact Or.inl h2
      · obtain ⟨ev, hev, heq⟩ := h2
        exact Or.inr ⟨p, List.mem_cons_self _ _, ev, hev, heq⟩
    · obtain ⟨p2, hp2, ev, hev, heq⟩ := h1
      exact Or.inr ⟨p2, List.mem_cons_of_mem _ hp2, ev, hev, heq⟩

lemma update_data_all_ok (now : ℤ) (pairs : List (RepoCfg × List Event)) (prev : List Row) :
    update_data now (pairs.map (fun p => (p.1, Except.ok p.2))) prev =
      (processAll CAPACITY now pairs ([], 0), none) := by
  unfold update_data
  have h := runRepos_ok_list CAPACITY now pairs [] ([], 0)
  rw [List.append_nil] at h
  rw [h]
  rfl

/-- C8: the update handler discards the previous table contents before
rebuilding (its result does not depend on them), a fully successful cycle
produces exactly the rebuild of the fetched events from the empty table,
and every row retained after such a cycle comes from an event fetched
during that cycle — never from a previous cycle. -/
theorem C8_full_rebuild :
    (∀ (now : ℤ) (inputs : List (RepoCfg × FetchResult)) (prevA prevB : List Row),
      update_data now inputs prevA = update_data now inputs prevB) ∧
    (∀ (now : ℤ) (pairs : List (RepoCfg × List Event)) (prev : List Row),
      update_data now (pairs.map (fun p => (p.1, Except.ok p.2))) prev =
        (processAll CAPACITY now pairs ([], 0), none)) ∧
    (∀ (now : ℤ) (pairs : List (RepoCfg × List Event)) (prev : List Row) (r : Row),
      r ∈ (update_data now (pairs.map (fun p => (p.1, Except.ok p.2))) prev).1.1 →
      ∃ p ∈ pairs, ∃ ev ∈ p.2, r = mkRow p.1 ev) := by
  refine ⟨fun _ _ _ _ => rfl, update_data_all_ok, ?_⟩
  intro now pairs prev r hmem
  rw [update_data_all_ok] at hmem
  rcases processAll_mem CAPACITY now pairs ([], 0) r hmem with h1 | h1
  · simp at h1
  · exact h1

theorem C8_full_rebuild_witness :
    ∃ p ∈ [((⟨"o", "r"⟩ : RepoCfg), [(⟨"E", 0⟩ : Event)])], ∃ ev ∈ p.2,
      (⟨"o", "r", 0, "E"⟩ : Row) = mkRow p.1 ev :=
  C8_full_rebuild.2.2 100 [(⟨"o", "r"⟩, [⟨"E", 0⟩])] [] ⟨"o", "r", 0, "E"⟩ (by decide)
